import Mathlib

/-!
Verification of the fuzzy-concepts explainer's computational core.

Shallow embedding of the four pure computations in `src/set.py`:
the piecewise membership scorer (lines 50-57), the golden-rule
validator for the three-vertex demo graph (lines 85-91), the
weighted-edge threshold partitioner (lines 230-242), and the
refusal / hesitation arithmetic of the picture-fuzzy-set tab
(lines 170-187).  The source performs its arithmetic on Python
floats; following the specification, which states every contract
over real numbers, the embedding uses exact rationals `ℚ`.
-/

/-- Membership scorer, from `src/set.py` lines 50-57: the `if height < 160
... elif height < 180 ... elif height < 190 ... else` chain computing
membership in the fuzzy set of tall people. -/
def score (x : ℚ) : ℚ :=
  if x < 160 then 0
  else if x < 180 then (x - 160) / 20 * (8/10)
  else if x < 190 then 8/10 + (x - 180) / 10 * (2/10)
  else 1

/-- Reference piecewise definition of the scorer, written from the spec's
interval table (`x < 160 → 0.0`, `160 ≤ x < 180 → ((x−160)/20) × 0.8`,
`180 ≤ x < 190 → 0.8 + ((x−180)/10) × 0.2`, `x ≥ 190 → 1.0`), to be
compared with `score`. -/
def scoreRef (x : ℚ) : ℚ :=
  if x < 160 then 0
  else if 160 ≤ x ∧ x < 180 then (x - 160) / 20 * (8/10)
  else if 180 ≤ x ∧ x < 190 then 8/10 + (x - 180) / 10 * (2/10)
  else 1

/-- Refusal computation of the picture-fuzzy-set tab, from `src/set.py`
line 187: `refusal = 1.0 - support_pfs - oppose_pfs - abstain_pfs`. -/
def derive (support opposition abstention : ℚ) : ℚ :=
  1 - support - opposition - abstention

/-- Hesitation computation of the intuitionistic tab, from `src/set.py`
line 173: `hesitation = 1.0 - support_ifs - oppose_ifs`. -/
def hesitation (support opposition : ℚ) : ℚ :=
  1 - support - opposition

/-- A weighted edge of the clustering demo: two node identifiers and a
similarity weight, as in the `edges` dict of `src/set.py` lines 230-234. -/
structure WEdge where
  u : String
  v : String
  w : ℚ
deriving DecidableEq

/-- Threshold partitioner, from the loop of `src/set.py` lines 236-242:
each edge whose `weight >= threshold` is kept (drawn as an edge); otherwise
it is cut, and only its two endpoint nodes are added, so every endpoint
appears among the nodes either way. -/
def partition (edges : List WEdge) (threshold : ℚ) :
    List WEdge × List WEdge × Finset String :=
  match edges with
  | [] => ([], [], ∅)
  | e :: rest =>
      if e.w ≥ threshold then
        (e :: (partition rest threshold).1, (partition rest threshold).2.1,
          insert e.u (insert e.v (partition rest threshold).2.2))
      else
        ((partition rest threshold).1, e :: (partition rest threshold).2.1,
          insert e.u (insert e.v (partition rest threshold).2.2))

/-- Unfolding lemma: how `partition` treats one more edge. -/
theorem partition_cons (t : ℚ) (a : WEdge) (rest : List WEdge) :
    ((partition (a :: rest) t).1 =
        if t ≤ a.w then a :: (partition rest t).1 else (partition rest t).1) ∧
    ((partition (a :: rest) t).2.1 =
        if t ≤ a.w then (partition rest t).2.1 else a :: (partition rest t).2.1) ∧
    (partition (a :: rest) t).2.2 =
        insert a.u (insert a.v (partition rest t).2.2) := by
  rw [partition]
  split_ifs with h1
  · exact ⟨rfl, rfl, rfl⟩
  · exact ⟨rfl, rfl, rfl⟩

/-- The static MST edge list of the clustering demo, `src/set.py`
lines 230-234. -/
def mstEdges : List WEdge :=
  [⟨"G9", "G4", 87/100⟩, ⟨"G7", "G2", 83/100⟩, ⟨"G6", "G1", 82/100⟩,
   ⟨"G7", "G3", 81/100⟩, ⟨"G7", "G8", 74/100⟩, ⟨"G10", "G5", 76/100⟩,
   ⟨"G3", "G9", 64/100⟩, ⟨"G8", "G10", 69/100⟩, ⟨"G1", "G4", 64/100⟩]

/-- An edge is in the kept component of `partition` iff it is an input edge
with weight `≥` the threshold, and in the cut component iff it is an input
edge with weight `<` the threshold. -/
theorem partition_mem (t : ℚ) (edges : List WEdge) (e : WEdge) :
    (e ∈ (partition edges t).1 ↔ e ∈ edges ∧ t ≤ e.w) ∧
    (e ∈ (partition edges t).2.1 ↔ e ∈ edges ∧ e.w < t) := by
  induction edges with
  | nil => simp [partition]
  | cons a rest ih =>
      rcases ih with ⟨ihk, ihc⟩
      rcases partition_cons t a rest with ⟨hk, hc, -⟩
      rw [hk, hc]
      by_cases h : t ≤ a.w
      · rw [if_pos h, if_pos h]
        constructor
        · rw [List.mem_cons, ihk]
          constructor
          · rintro (rfl | ⟨he, hw⟩)
            · exact ⟨List.mem_cons_self _ _, h⟩
            · exact ⟨List.mem_cons_of_mem _ he, hw⟩
          · rintro ⟨hmem, hw⟩
            rcases List.mem_cons.mp hmem with rfl | he
            · exact Or.inl rfl
            · exact Or.inr ⟨he, hw⟩
        · rw [ihc]
          constructor
          · rintro ⟨he, hw⟩
            exact ⟨List.mem_cons_of_mem _ he, hw⟩
          · rintro ⟨hmem, hw⟩
            rcases List.mem_cons.mp hmem with rfl | he
            · exact absurd h (not_le.mpr hw)
            · exact ⟨he, hw⟩
      · rw [if_neg h, if_neg h]
        rw [not_le] at h
        constructor
        · rw [ihk]
          constructor
          · rintro ⟨he, hw⟩
            exact ⟨List.mem_cons_of_mem _ he, hw⟩
          · rintro ⟨hmem, hw⟩
            rcases List.mem_cons.mp hmem with rfl | he
            · exact absurd h (not_lt.mpr hw)
            · exact ⟨he, hw⟩
        · rw [List.mem_cons, ihc]
          constructor
          · rintro (rfl | ⟨he, hw⟩)
            · exact ⟨List.mem_cons_self _ _, h⟩
            · exact ⟨List.mem_cons_of_mem _ he, hw⟩
          · rintro ⟨hmem, hw⟩
            rcases List.mem_cons.mp hmem with rfl | he
            · exact Or.inl rfl
            · exact Or.inr ⟨he, hw⟩

/-- C2: an edge is kept iff its weight is `≥` the threshold (inclusive
boundary) and cut otherwise, kept and cut are disjoint, their union is the
input edge list, and on the example edges `(G9,G4,0.87)`, `(G1,G4,0.64)`
with threshold `0.65` the result is kept `[(G9,G4,0.87)]`, cut
`[(G1,G4,0.64)]`, nodes `{G9, G4, G1}`. -/
theorem partition_kept_cut_correct :
    (∀ (edges : List WEdge) (t : ℚ) (e : WEdge),
        (e ∈ (partition edges t).1 ↔ e ∈ edges ∧ t ≤ e.w) ∧
        (e ∈ (partition edges t).2.1 ↔ e ∈ edges ∧ e.w < t) ∧
        ¬ (e ∈ (partition edges t).1 ∧ e ∈ (partition edges t).2.1) ∧
        (e ∈ (partition edges t).1 ∨ e ∈ (partition edges t).2.1 ↔ e ∈ edges)) ∧
    partition [⟨"G9", "G4", 87/100⟩, ⟨"G1", "G4", 64/100⟩] (65/100) =
      ([⟨"G9", "G4", 87/100⟩], [⟨"G1", "G4", 64/100⟩], {"G9", "G4", "G1"}) := by
  constructor
  · intro edges t e
    rcases partition_mem t edges e with ⟨hk, hc⟩
    refine ⟨hk, hc, ?_, ?_⟩
    · rintro ⟨h1, h2⟩
      exact absurd (hk.mp h1).2 (not_le.mpr (hc.mp h2).2)
    · rw [hk, hc]
      constructor
      · rintro (⟨he, _⟩ | ⟨he, _⟩) <;> exact he
      · intro he
        rcases le_or_lt t e.w with h | h
        · exact Or.inl ⟨he, h⟩
        · exact Or.inr ⟨he, h⟩
  · norm_num [partition]
    ext x
    simp only [Finset.mem_insert, Finset.mem_singleton]
    tauto

/-- C8: the nodes component of `partition` is exactly the set of endpoints
of all input edges, kept or cut, and is therefore the same for every
threshold; a node all of whose incident edges are cut still appears. -/
theorem partition_nodes_all_endpoints :
    (∀ (edges : List WEdge) (t : ℚ) (s : String),
        s ∈ (partition edges t).2.2 ↔ ∃ e ∈ edges, s = e.u ∨ s = e.v) ∧
    (∀ (edges : List WEdge) (t t' : ℚ),
        (partition edges t).2.2 = (partition edges t').2.2) := by
  have key : ∀ (t : ℚ) (edges : List WEdge) (s : String),
      s ∈ (partition edges t).2.2 ↔ ∃ e ∈ edges, s = e.u ∨ s = e.v := by
    intro t edges
    induction edges with
    | nil => intro s; simp [partition]
    | cons a rest ih =>
        intro s
        rw [(partition_cons t a rest).2.2, Finset.mem_insert, Finset.mem_insert, ih s]
        constructor
        · rintro (rfl | rfl | ⟨e, he, hee⟩)
          · exact ⟨a, List.mem_cons_self _ _, Or.inl rfl⟩
          · exact ⟨a, List.mem_cons_self _ _, Or.inr rfl⟩
          · exact ⟨e, List.mem_cons_of_mem _ he, hee⟩
        · rintro ⟨e, he, hee⟩
          rcases List.mem_cons.mp he with rfl | he'
          · rcases hee with rfl | rfl
            · exact Or.inl rfl
            · exact Or.inr (Or.inl rfl)
          · exact Or.inr (Or.inr ⟨e, he', hee⟩)
  refine ⟨fun edges t s => key t edges s, fun edges t t' => ?_⟩
  ext s
  rw [key t edges s, key t' edges s]

/-- C3: `score` agrees everywhere with the spec's three-segment
piecewise-linear reference definition, and the segment boundaries are
exact: `score 160 = 0`, `score 180 = 0.8`, `score 190 = 1`. -/
theorem score_matches_reference :
    (∀ x : ℚ, score x = scoreRef x) ∧
    score 160 = 0 ∧ score 180 = 8/10 ∧ score 190 = 1 := by
  refine ⟨fun x => ?_, by norm_num [score], by norm_num [score], by norm_num [score]⟩
  unfold score scoreRef
  rcases lt_or_le x 160 with h1 | h1
  · rw [if_pos h1, if_pos h1]
  · rw [if_neg (not_lt.mpr h1), if_neg (not_lt.mpr h1)]
    rcases lt_or_le x 180 with h2 | h2
    · rw [if_pos h2, if_pos ⟨h1, h2⟩]
    · have hA : ¬ (160 ≤ x ∧ x < 180) := fun hc => absurd hc.2 (not_lt.mpr h2)
      rw [if_neg (not_lt.mpr h2), if_neg hA]
      rcases lt_or_le x 190 with h3 | h3
      · rw [if_pos h3, if_pos ⟨h2, h3⟩]
      · have hB : ¬ (180 ≤ x ∧ x < 190) := fun hc => absurd hc.2 (not_lt.mpr h3)
        rw [if_neg (not_lt.mpr h3), if_neg hB]

/-- C7: `score` is monotonically non-decreasing on all of `ℚ`, its output
always lies in `[0,1]`, it is identically `0` below `160` and identically
`1` from `190` on. -/
theorem score_monotone_and_bounded :
    (∀ x y : ℚ, x ≤ y → score x ≤ score y) ∧
    (∀ x : ℚ, 0 ≤ score x ∧ score x ≤ 1) ∧
    (∀ x : ℚ, x < 160 → score x = 0) ∧
    (∀ x : ℚ, 190 ≤ x → score x = 1) := by
  refine ⟨?_, ?_, ?_, ?_⟩
  · intro x y hxy
    unfold score
    split_ifs <;> linarith
  · intro x
    unfold score
    split_ifs <;> constructor <;> linarith
  · intro x hx
    rw [score, if_pos hx]
  · intro x hx
    unfold score
    split_ifs <;> linarith

/-- Witness for C7 at concrete inputs: monotone from 150 to 200, bounded at
170, zero at 150, one at 195. -/
theorem score_monotone_and_bounded_witness :
    score 150 ≤ score 200 ∧ (0 ≤ score 170 ∧ score 170 ≤ 1) ∧
    score 150 = 0 ∧ score 195 = 1 :=
  ⟨score_monotone_and_bounded.1 150 200 (by norm_num),
   score_monotone_and_bounded.2.1 170,
   score_monotone_and_bounded.2.2.1 150 (by norm_num),
   score_monotone_and_bounded.2.2.2 195 (by norm_num)⟩

/-- C5: `derive` returns the complementary refusal `1 − s − o − a`, so the
four degrees sum exactly to 1; in particular
`derive 0.5 0.2 0.1 = 0.2` and `derive 0.7 0.3 0 = 0`. -/
theorem derive_sums_to_one :
    (∀ s o a : ℚ, s + o + a + derive s o a = 1) ∧
    derive (5/10) (2/10) (1/10) = 2/10 ∧ derive (7/10) (3/10) 0 = 0 := by
  refine ⟨fun s o a => ?_, by norm_num [derive], by norm_num [derive]⟩
  unfold derive; ring

/-- C10: under the dependent slider caps of the UI
(`0 ≤ s ≤ 1`, `0 ≤ o ≤ 1 − s`, `0 ≤ a ≤ 1 − s − o`) the derived refusal
lies in `[0,1]` even though `derive` itself checks nothing; likewise the
hesitation value `1 − s − o` lies in `[0,1]` under its cap. -/
theorem derive_refusal_in_unit_interval (s o a : ℚ)
    (hs0 : 0 ≤ s) (hs1 : s ≤ 1)
    (ho0 : 0 ≤ o) (ho1 : o ≤ 1 - s)
    (ha0 : 0 ≤ a) (ha1 : a ≤ 1 - s - o) :
    (0 ≤ derive s o a ∧ derive s o a ≤ 1) ∧
    (0 ≤ hesitation s o ∧ hesitation s o ≤ 1) := by
  unfold derive hesitation
  constructor <;> constructor <;> linarith

/-- Witness for C10 at the source's default slider values
(support 0.5, opposition 0.2, abstention 0.1). -/
theorem derive_refusal_in_unit_interval_witness :
    (0 ≤ derive (5/10) (2/10) (1/10) ∧ derive (5/10) (2/10) (1/10) ≤ 1) ∧
    (0 ≤ hesitation (5/10) (2/10) ∧ hesitation (5/10) (2/10) ≤ 1) :=
  derive_refusal_in_unit_interval (5/10) (2/10) (1/10)
    (by norm_num) (by norm_num) (by norm_num) (by norm_num) (by norm_num) (by norm_num)

/-- A golden-rule violation record: the edge's label, its strength μ and
the bound `min` of its endpoint existence values, the data interpolated
into the warning strings of `src/set.py` lines 87, 89 and 91. -/
structure Violation where
  edge : String
  mu : ℚ
  vbound : ℚ
deriving DecidableEq

/-- Golden-rule validator of the three-vertex demo graph, from `src/set.py`
lines 85-91: for each of the edges A-B, B-C, A-C in that order, a
violation is appended when its strength μ exceeds the minimum of its
endpoints' existence values σ. -/
def validate (sa sb sc mab mbc mac : ℚ) : List Violation :=
  (if mab > min sa sb then [⟨"A-B", mab, min sa sb⟩] else []) ++
  (if mbc > min sb sc then [⟨"B-C", mbc, min sb sc⟩] else []) ++
  (if mac > min sa sc then [⟨"A-C", mac, min sa sc⟩] else [])

/-- C4: on every valid fuzzy graph (each edge's μ at most the min of its
endpoints' σ) `validate` returns the empty list, and in general the
violations appear in the input edge order A-B, B-C, A-C. -/
theorem validate_valid_graph_empty (sa sb sc mab mbc mac : ℚ) :
    (mab ≤ min sa sb ∧ mbc ≤ min sb sc ∧ mac ≤ min sa sc →
        validate sa sb sc mab mbc mac = []) ∧
    List.Sublist ((validate sa sb sc mab mbc mac).map Violation.edge)
      ["A-B", "B-C", "A-C"] := by
  constructor
  · rintro ⟨h1, h2, h3⟩
    rw [validate, if_neg (not_lt.mpr h1), if_neg (not_lt.mpr h2), if_neg (not_lt.mpr h3)]
    rfl
  · rw [validate]
    split_ifs <;> simp

/-- Witness for C4 at the source's default slider values
`σ = (0.9, 0.8, 1.0)`, `μ = (0.7, 0.6, 0.5)`, which form a valid graph. -/
theorem validate_valid_graph_empty_witness :
    validate (9/10) (8/10) 1 (7/10) (6/10) (5/10) = [] ∧
    List.Sublist ((validate (9/10) (8/10) 1 (7/10) (6/10) (5/10)).map Violation.edge)
      ["A-B", "B-C", "A-C"] :=
  ⟨(validate_valid_graph_empty (9/10) (8/10) 1 (7/10) (6/10) (5/10)).1
      ⟨by norm_num, by norm_num, by norm_num⟩,
   (validate_valid_graph_empty (9/10) (8/10) 1 (7/10) (6/10) (5/10)).2⟩

/-- A report of the generalized validator: a golden-rule violation, or a
missing-vertex error for an edge naming an undeclared vertex. -/
inductive Report where
  | violation (u v : String) (mu vbound : ℚ)
  | missingVertex (u v : String)
deriving DecidableEq

/-- Modelled from the spec: the generalized validator contract of §4.2,
`validate(vertices: mapping[id → σ], edges: sequence[(u, v, μ)]) ->
sequence[violation]`.  The source (`src/set.py` lines 85-91) contains only
its specialization to a fixed three-vertex graph whose vertices always
exist; the vertex-mapping interface and the `MissingVertexError` report
are absent from `src/` and follow the spec's words: for each edge compute
`bound = min(σ(u), σ(v))` and emit a violation if `μ > bound`, and an edge
referencing a vertex absent from the mapping is reported as a
missing-vertex error rather than silently skipped, in input edge order. -/
def validateGen (vertices : List (String × ℚ)) :
    List (String × String × ℚ) → List Report
  | [] => []
  | e :: rest =>
      match vertices.lookup e.1, vertices.lookup e.2.1 with
      | some su, some sv =>
          if min su sv < e.2.2 then
            Report.violation e.1 e.2.1 e.2.2 (min su sv) :: validateGen vertices rest
          else validateGen vertices rest
      | _, _ => Report.missingVertex e.1 e.2.1 :: validateGen vertices rest

/-- C6: an edge naming a vertex absent from the vertex mapping always
yields a missing-vertex report in the output of the generalized validator;
it is never silently skipped. -/
theorem validateGen_reports_missing_vertex
    (vertices : List (String × ℚ)) (edges : List (String × String × ℚ))
    (u v : String) (m : ℚ) (hmem : (u, v, m) ∈ edges)
    (habs : vertices.lookup u = none ∨ vertices.lookup v = none) :
    Report.missingVertex u v ∈ validateGen vertices edges := by
  induction edges with
  | nil => exact absurd hmem (List.not_mem_nil _)
  | cons a rest ih =>
      rcases List.mem_cons.mp hmem with heq | hmem'
      · cases heq
        rcases habs with h | h
        · rcases hv : vertices.lookup v with _ | sv
          · rw [validateGen]
            simp only [h, hv]
            exact List.mem_cons_self _ _
          · rw [validateGen]
            simp only [h, hv]
            exact List.mem_cons_self _ _
        · rcases hu : vertices.lookup u with _ | su
          · rw [validateGen]
            simp only [h, hu]
            exact List.mem_cons_self _ _
          · rw [validateGen]
            simp only [h, hu]
            exact List.mem_cons_self _ _
      · have hrec := ih hmem'
        rcases hu : vertices.lookup a.1 with _ | su
        · rw [validateGen]
          simp only [hu]
          rcases hv : vertices.lookup a.2.1 with _ | sv
          · exact List.mem_cons_of_mem _ hrec
          · exact List.mem_cons_of_mem _ hrec
        · rcases hv : vertices.lookup a.2.1 with _ | sv
          · rw [validateGen]
            simp only [hu, hv]
            exact List.mem_cons_of_mem _ hrec
          · rw [validateGen]
            simp only [hu, hv]
            by_cases hb : min su sv < a.2.2
            · rw [if_pos hb]
              exact List.mem_cons_of_mem _ hrec
            · rw [if_neg hb]
              exact hrec

/-- Witness for C6: with vertex mapping `[("A", 0.9)]` and the single edge
`("A", "D", 0.5)`, whose endpoint `D` is undeclared, the missing-vertex
report for A-D is produced. -/
theorem validateGen_reports_missing_vertex_witness :
    Report.missingVertex "A" "D" ∈
      validateGen [("A", 9/10)] [("A", "D", 5/10)] :=
  validateGen_reports_missing_vertex [("A", 9/10)] [("A", "D", 5/10)]
    "A" "D" (5/10) (List.mem_cons_self _ _) (Or.inr rfl)

/-- Two successive calls of the same function on the same input; no state
is carried from the first call to the second. -/
def runTwice {α β : Type} (f : α → β) (a : α) : β × β := (f a, f a)

/-- C9: each of the four core computations is deterministic and stateless:
evaluating it twice on identical input yields identical results, which
holds because each is a pure function of its arguments alone, exactly as
in the source, where each value is recomputed from the current widget
inputs with no module-level mutable state. -/
theorem core_functions_deterministic :
    (∀ x : ℚ, (runTwice score x).1 = (runTwice score x).2) ∧
    (∀ p : (ℚ × ℚ × ℚ) × ℚ × ℚ × ℚ,
        (runTwice (fun q : (ℚ × ℚ × ℚ) × ℚ × ℚ × ℚ =>
            validate q.1.1 q.1.2.1 q.1.2.2 q.2.1 q.2.2.1 q.2.2.2) p).1 =
        (runTwice (fun q : (ℚ × ℚ × ℚ) × ℚ × ℚ × ℚ =>
            validate q.1.1 q.1.2.1 q.1.2.2 q.2.1 q.2.2.1 q.2.2.2) p).2) ∧
    (∀ (edges : List WEdge) (t : ℚ),
        (runTwice (fun p : List WEdge × ℚ => partition p.1 p.2) (edges, t)).1 =
        (runTwice (fun p : List WEdge × ℚ => partition p.1 p.2) (edges, t)).2) ∧
    (∀ s o a : ℚ,
        (runTwice (fun p : ℚ × ℚ × ℚ => derive p.1 p.2.1 p.2.2) (s, o, a)).1 =
        (runTwice (fun p : ℚ × ℚ × ℚ => derive p.1 p.2.1 p.2.2) (s, o, a)).2) :=
  ⟨fun _ => rfl, fun _ => rfl, fun _ _ => rfl, fun _ _ _ => rfl⟩

/-- C1 counterexample: at the claim's own example input `(0.6, 0.5, 0.0)`
the code returns the value `−0.1` — it silently produces a negative
refusal; no error path exists anywhere in the computation, contradicting
the claim that `derive` raises `InvalidCompositionError` instead. -/
theorem derive_silently_negative_at_example :
    derive (6/10) (5/10) 0 = -(1/10) ∧ derive (6/10) (5/10) 0 < 0 := by
  constructor <;> norm_num [derive]

/-- C1 amended: the code's `derive` performs no validation and has no error
path; it always returns `1 − s − o − a`, and that value is negative exactly
when `s + o + a > 1`, so an over-sum input yields a silently negative
refusal rather than an `InvalidCompositionError`. -/
theorem derive_negative_iff_oversum :
    ∀ s o a : ℚ, derive s o a < 0 ↔ 1 < s + o + a := by
  intro s o a
  unfold derive
  constructor <;> intro h <;> linarith
